import Mathlib

/-!
Verification development for the pyllmtranslator repository.

Shallow embedding of `src/core/chunker.py` (class `TextChunker`) and
`src/core/translator.py` (class `TranslationManager`) over `List Char`
(Python `str` is a sequence of code points).  Python exceptions are
modelled with `Option`/`Except`; Python `int` token budgets are modelled
as `Nat` (a token budget counts estimated model-context units).
-/

set_option maxHeartbeats 1000000

namespace PyTrans

/-- Python whitespace (`str.isspace` / regex `\s` on `str`): the ASCII
whitespace characters together with the Unicode `White_Space` code points.
Used by `str.strip()` and by the `\s` parts of the splitting regexes. -/
def isPySpace (c : Char) : Bool :=
  decide ((9 ≤ c.toNat ∧ c.toNat ≤ 13) ∨ (28 ≤ c.toNat ∧ c.toNat ≤ 32) ∨
    c.toNat = 133 ∨ c.toNat = 160 ∨ c.toNat = 5760 ∨
    (8192 ≤ c.toNat ∧ c.toNat ≤ 8202) ∨ c.toNat = 8232 ∨ c.toNat = 8233 ∨
    c.toNat = 8239 ∨ c.toNat = 8287 ∨ c.toNat = 12288)

/-- The character class `[一-鿿]` from `estimate_tokens`
(chunker.py line 36): CJK unified ideographs. -/
def isCJK (c : Char) : Bool :=
  decide (0x4e00 ≤ c.toNat ∧ c.toNat ≤ 0x9fff)

/-- Python `str.strip()`: remove leading and trailing whitespace. -/
def strip (s : List Char) : List Char :=
  ((s.dropWhile isPySpace).reverse.dropWhile isPySpace).reverse

/-- Number of characters of `text` matched by `[一-鿿]`
(`chinese_chars` in chunker.py line 36). -/
def cjkCount (s : List Char) : Nat :=
  (s.filter isCJK).length

/-- `TextChunker.estimate_tokens` (chunker.py lines 21-42).
`math.ceil(chinese_chars / 1.5)` equals the exact ceiling of `2*c/3`
(the float division by 1.5 is exact enough that no integer boundary is
crossed), written here as `(2*c + 2) / 3` in `Nat`; likewise
`math.ceil(other_chars / 4)` is `(o + 3) / 4`. -/
def estimate_tokens (s : List Char) : Nat :=
  if s = [] then 0
  else
    max ((2 * cjkCount s + 2) / 3 + ((s.length - cjkCount s) + 3) / 4) 1

/-- Fuel-driven body of `TextChunker._force_split` (chunker.py lines
108-113): slice `text` into consecutive windows of `maxChars` characters.
The fuel only discharges termination; it is called with
`fuel = text.length`, which is enough whenever `1 ≤ maxChars`. -/
def forceSplitGo : Nat → List Char → Nat → List (List Char)
  | _, [], _ => []
  | 0, s, _ => [s]
  | fuel + 1, s, maxChars => s.take maxChars :: forceSplitGo fuel (s.drop maxChars) maxChars

/-- `TextChunker._force_split` (chunker.py lines 108-113).  Python's
`range(0, len(text), max_chars)` raises `ValueError` when the step
`max_chars` is `0`; that exception is modelled as `none`. -/
def force_split (text : List Char) (maxChars : Nat) : Option (List (List Char)) :=
  if maxChars = 0 then none
  else some (forceSplitGo text.length text maxChars)

/-- Characters of the regex class `[.!?]` (English sentence enders). -/
def isEngEnd (c : Char) : Bool :=
  c == '.' || c == '!' || c == '?'

/-- Characters of the regex class `[。！？]` (CJK sentence enders). -/
def isCJKEnd (c : Char) : Bool :=
  c == '。' || c == '！' || c == '？'

/-- Characters of the regex class `[.!?。！？]`. -/
def isAnyEnd (c : Char) : Bool :=
  isEngEnd c || isCJKEnd c

/-- Match of the regex `[.!?]+\s+` at a position whose first character is
`c` and remaining input is `rest`.  Returns the number of characters the
match consumes from `rest` (the total match length is one more).  The
greedy `+` runs take the maximal class run and then the maximal
whitespace run; shortening the class run cannot help, since a class
character is never whitespace. -/
def matchEngAt (c : Char) (rest : List Char) : Option Nat :=
  if isEngEnd c then
    match (rest.takeWhile isEngEnd).length with
    | r =>
      match ((rest.drop r).takeWhile isPySpace).length with
      | 0 => none
      | w + 1 => some (r + w + 1)
  else none

/-- Match of the regex `[。！？]+\s*` at `c :: rest`, as `matchEngAt`:
the whitespace run may be empty, so a class character always matches. -/
def matchCJKAt (c : Char) (rest : List Char) : Option Nat :=
  if isCJKEnd c then
    match (rest.takeWhile isCJKEnd).length with
    | r => some (r + ((rest.drop r).takeWhile isPySpace).length)
  else none

/-- Match of the regex `[.!?。！？]+\n` at `c :: rest`: maximal class run
followed immediately by a newline (backtracking the run cannot expose a
newline, since class characters are not newlines). -/
def matchNLAt (c : Char) (rest : List Char) : Option Nat :=
  if isAnyEnd c then
    match (rest.takeWhile isAnyEnd).length with
    | r =>
      match rest.drop r with
      | nl :: _ => if nl == '\n' then some (r + 1) else none
      | [] => none
  else none

/-- Index of the last `'\n'` in a list, if any. -/
def lastNewlinePos : List Char → Option Nat
  | [] => none
  | c :: rest =>
    match lastNewlinePos rest with
    | some i => some (i + 1)
    | none => if c == '\n' then some 0 else none

/-- Match of the paragraph separator regex `\n\s*\n` at `c :: rest`:
a newline, then the greedy `\s*` backtracks to the last newline inside
the maximal whitespace run that follows. -/
def matchParaAt (c : Char) (rest : List Char) : Option Nat :=
  if c == '\n' then
    (lastNewlinePos (rest.takeWhile isPySpace)).map (· + 1)
  else none

/-- Python `re.split` with non-overlapping leftmost matching, keeping the
matched separators: scans the input left to right, and on a match of
`matchAt` emits the accumulated piece together with the separator text.
Returns the (piece, separator) pairs followed by the trailing piece
after the last match.  Fuel-driven (each step consumes at least one
character, so `fuel = input.length` suffices). -/
def splitKeepGo (matchAt : Char → List Char → Option Nat) :
    Nat → List Char → List Char → List (List Char × List Char) × List Char
  | _, acc, [] => ([], acc.reverse)
  | 0, acc, s => ([], acc.reverse ++ s)
  | fuel + 1, acc, c :: rest =>
    match matchAt c rest with
    | some j =>
      match splitKeepGo matchAt fuel [] (rest.drop j) with
      | (ps, t) => ((acc.reverse, c :: rest.take j) :: ps, t)
    | none => splitKeepGo matchAt fuel (c :: acc) rest

/-- `re.split` against a whole input, keeping separators. -/
def pySplitParts (matchAt : Char → List Char → Option Nat) (s : List Char) :
    List (List Char × List Char) × List Char :=
  splitKeepGo matchAt s.length [] s

/-- `TextChunker._split_by_paragraphs` (chunker.py lines 79-83):
`re.split(r'\n\s*\n', text)` followed by stripping each piece and
dropping blank pieces. -/
def split_by_paragraphs (text : List Char) : List (List Char) :=
  match pySplitParts matchParaAt text with
  | (ps, t) =>
    (ps.map Prod.fst ++ [t]).filterMap fun p =>
      match strip p with
      | [] => none
      | q => some q

/-- The sentence-assembly loop of `_split_by_sentences` (chunker.py lines
93-99): each piece is glued to the separator that follows it, stripped,
and kept if non-blank.  The trailing piece after the last separator is
never visited by the loop `for i in range(0, len(parts) - 1, 2)`. -/
def sentencesFromParts (ps : List (List Char × List Char)) : List (List Char) :=
  ps.filterMap fun pr =>
    match strip (pr.1 ++ pr.2) with
    | [] => none
    | q => some q

/-- The `sentences` list built by the pattern loop of
`_split_by_sentences` (chunker.py lines 90-100): the three sentence
patterns are tried in order and the first one that produces at least one
match (`len(parts) > 1`, i.e. a nonempty pair list) is used. -/
def sentence_candidates (text : List Char) : List (List Char) :=
  match pySplitParts matchEngAt text with
  | ([], _) =>
    match pySplitParts matchCJKAt text with
    | ([], _) =>
      match pySplitParts matchNLAt text with
      | ([], _) => []
      | (ps, _) => sentencesFromParts ps
    | (ps, _) => sentencesFromParts ps
  | (ps, _) => sentencesFromParts ps

/-- `TextChunker._split_by_sentences` (chunker.py lines 85-106): the
pattern loop, then `if not sentences:` falls back to
`_force_split(text, 500)`.  The `Option` records the (here unreachable,
since 500 is nonzero) `ValueError`. -/
def split_by_sentences (text : List Char) : Option (List (List Char)) :=
  match sentence_candidates text with
  | [] => force_split text 500
  | sentences => some sentences

/-- The accumulation loop of `TextChunker._merge_small_chunks`
(chunker.py lines 142-164), with `current` the running chunk.  Returns
the chunks produced from this point on; `none` models the `ValueError`
raised by `_force_split` when `max_tokens * 3 = 0`. -/
def merge_go (maxTokens : Nat) : List Char → List (List Char) → Option (List (List Char))
  | current, [] => some (if current = [] then [] else [current])
  | current, chunk :: rest =>
    if estimate_tokens (if current = [] then chunk else current ++ '\n' :: chunk) ≤ maxTokens then
      merge_go maxTokens (if current = [] then chunk else current ++ '\n' :: chunk) rest
    else
      if maxTokens < estimate_tokens chunk then
        match force_split chunk (maxTokens * 3) with
        | none => none
        | some subs =>
          (merge_go maxTokens (subs.getLastD []) rest).map
            fun t => (if current = [] then [] else [current]) ++ subs.dropLast ++ t
      else
        (merge_go maxTokens chunk rest).map
          fun t => (if current = [] then [] else [current]) ++ t

/-- `TextChunker._merge_small_chunks` (chunker.py lines 137-166). -/
def merge_small_chunks (chunks : List (List Char)) (maxTokens : Nat) :
    Option (List (List Char)) :=
  if chunks = [] then some [] else merge_go maxTokens [] chunks

/-- `TextChunker._process_chunks` (chunker.py lines 115-135): keep chunks
within the budget, split oversized chunks by sentences (then re-merge) or,
when sentence splitting is not allowed, force-split them at
`max_tokens * 3` characters. -/
def process_chunks (initial : List (List Char)) (maxTokens : Nat)
    (allowSentence : Bool) : Option (List (List Char)) :=
  match initial with
  | [] => some []
  | chunk :: rest =>
    match
      (if estimate_tokens chunk ≤ maxTokens then some [chunk]
       else if allowSentence then
         (split_by_sentences chunk).bind fun ss => merge_small_chunks ss maxTokens
       else force_split chunk (maxTokens * 3)),
      process_chunks rest maxTokens allowSentence
    with
    | some h, some t => some (h ++ t)
    | _, _ => none

/-- The two boundary-preference strings `"paragraph"` and `"sentence"`
recognized by `chunk_text`. -/
inductive Boundary where
  | paragraph
  | sentence
deriving DecidableEq

/-- `TextChunker.chunk_text` (chunker.py lines 44-77).  `preferBoundary =
none` models the Python default `prefer_boundary=None`, replaced by
`["paragraph", "sentence"]`.  The result is `none` when the Python code
raises (`ValueError` from `_force_split` with a zero window, which happens
exactly when `max_tokens = 0` is reached with an oversized chunk). -/
def chunk_text (text : List Char) (maxTokens : Nat)
    (preferBoundary : Option (List Boundary)) : Option (List (List Char)) :=
  if strip text = [] then some []
  else
    if estimate_tokens text ≤ maxTokens then some [text]
    else
      (if Boundary.paragraph ∈ preferBoundary.getD [Boundary.paragraph, Boundary.sentence] then
        process_chunks (split_by_paragraphs text) maxTokens
          (Boundary.sentence ∈ preferBoundary.getD [Boundary.paragraph, Boundary.sentence])
      else
        process_chunks [text] maxTokens
          (Boundary.sentence ∈ preferBoundary.getD [Boundary.paragraph, Boundary.sentence])).map
        fun cs => cs.filterMap fun c =>
          match strip c with
          | [] => none
          | q => some q

/-- `TranslationManager._merge_chunks` (translator.py lines 183-191), the
Python accumulation loop: `merged` is the text built so far and `i` the
index of the next chunk. -/
def merge_chunks_loop : List Char → Nat → List (List Char) → List Char
  | merged, _, [] => merged
  | merged, i, chunk :: rest =>
    match strip chunk with
    | [] => merge_chunks_loop merged (i + 1) rest
    | c =>
      if 0 < i ∧ ¬((merged.reverse.take 2 = ['\n', '\n']) ∨ (c.head? = some '\n')) then
        merge_chunks_loop (merged ++ '\n' :: '\n' :: c) (i + 1) rest
      else
        merge_chunks_loop (merged ++ c) (i + 1) rest

/-- `TranslationManager._merge_chunks` (translator.py lines 168-193):
trim each translated chunk, skip blank ones, and join with a blank-line
separator when the accumulated text does not already end with one and
the chunk does not start with a newline. -/
def merge_chunks (chunks : List (List Char)) : List Char :=
  if chunks = [] then [] else merge_chunks_loop [] 0 chunks

/-- The two supported LLM providers (translator.py lines 146-166). -/
inductive LLMClient where
  | openai
  | ollama
deriving DecidableEq

/-- The configuration fields of `config` that the claims depend on:
the provider tag and the `max_tokens` budget passed to `chunk_text`. -/
structure TranslationConfig where
  provider : List Char
  maxTokens : Nat
deriving DecidableEq

/-- `TranslationManager._create_llm_client` (translator.py lines 134-166):
lower-case the provider tag; `"ollama"` and `"openai"` construct a
client, anything else raises `ValueError` (modelled as `Except.error`). -/
def create_llm_client (cfg : TranslationConfig) : Except (List Char) LLMClient :=
  if cfg.provider.map Char.toLower = "ollama".data then Except.ok LLMClient.ollama
  else if cfg.provider.map Char.toLower = "openai".data then Except.ok LLMClient.openai
  else Except.error (cfg.provider.map Char.toLower)

/-- Outcome of `translate_file` for one document: Python returns `True`
after writing the merged text (carried by `success`) or `False`
(`failure`, which carries no text — no partial output exists). -/
inductive Outcome where
  | success (text : List Char)
  | failure
deriving DecidableEq

/-- The per-chunk loop of `translate_file` (translator.py lines 64-85):
the backend call for the chunk at position `i` yields
`translate i : Option (List Char)` (`none` models `llm_client.translate`
returning `None` — retries exhausted, auth failure, or cancellation).
Python then tests truthiness, so an empty translation is also a failure.
`none` here models the `return False` that abandons the document. -/
def collect_translations (translate : Nat → Option (List Char)) :
    Nat → List (List Char) → Option (List (List Char))
  | _, [] => some []
  | i, _ :: rest =>
    match translate i with
    | none => none
    | some t =>
      if t = [] then none
      else (collect_translations translate (i + 1) rest).map fun ts => t :: ts

/-- `TranslationManager.translate_file` (translator.py lines 30-104), with
the file reading and writing collaborators abstracted away: `content` is
the text read from the file, and a successful outcome carries the merged
translated text that Python writes out.  All exceptions inside the
`try` (including the `ValueError` from `_create_llm_client` and the
`ValueError` from `_force_split`) are caught and turned into `False`. -/
def translate_file (cfg : TranslationConfig) (content : List Char)
    (translate : Nat → Option (List Char)) : Outcome :=
  match create_llm_client cfg with
  | Except.error _ => Outcome.failure
  | Except.ok _ =>
    if strip content = [] then Outcome.failure
    else
      match chunk_text content cfg.maxTokens none with
      | none => Outcome.failure
      | some chunks =>
        match collect_translations translate 0 chunks with
        | none => Outcome.failure
        | some ts => Outcome.success (merge_chunks ts)

/-- Whether an outcome is the Python `True` result. -/
def Outcome.ok : Outcome → Bool
  | Outcome.success _ => true
  | Outcome.failure => false

/-- `TranslationManager.translate_files` (translator.py lines 106-132):
documents are processed strictly in order and every document is recorded
with the boolean returned by `translate_file`; the loop never aborts.
`files` is the list of (identifier, content) pairs and
`translate fileId chunkIdx` the backend behaviour for each document. -/
def translate_files (cfg : TranslationConfig) (files : List (Nat × List Char))
    (translate : Nat → Nat → Option (List Char)) : List (Nat × Bool) :=
  files.map fun f => (f.1, (translate_file cfg f.2 (translate f.1)).ok)

/-- The separator rule of `_merge_chunks` as amended (claim C9): each
chunk is trimmed, blank chunks are skipped, and a blank-line separator is
placed before every kept piece whose original index is positive —
including a kept piece preceded only by skipped blank chunks, which
therefore gets a leading separator.  (The accumulated text can never
already end with a blank line, because kept pieces end in
non-whitespace.) -/
def merge_chunks_spec_from (i : Nat) : List (List Char) → List Char
  | [] => []
  | chunk :: rest =>
    (match strip chunk with
     | [] => []
     | c => (if i = 0 then [] else ['\n', '\n']) ++ c) ++
      merge_chunks_spec_from (i + 1) rest

/-- The amended merge rule against the whole chunk list. -/
def merge_chunks_spec (chunks : List (List Char)) : List Char :=
  merge_chunks_spec_from 0 chunks

/-! ### Basic facts about `strip`, the character classes and `estimate_tokens` -/

theorem space_not_cjk (c : Char) (h : isPySpace c = true) : isCJK c = false := by
  simp only [isPySpace, decide_eq_true_eq] at h
  simp only [isCJK, decide_eq_false_iff_not]
  omega

theorem dropWhile_head_false {p : Char → Bool} :
    ∀ {l : List Char} {a : Char} {t : List Char}, l.dropWhile p = a :: t → p a = false := by
  intro l
  induction l with
  | nil => intro a t h; simp at h
  | cons c cs ih =>
    intro a t h
    rw [List.dropWhile_cons] at h
    by_cases hc : p c = true
    · rw [if_pos hc] at h
      exact ih h
    · rw [if_neg hc] at h
      cases h
      simpa using hc

theorem dropWhile_eq_strip_append (s : List Char) :
    s.dropWhile isPySpace =
      strip s ++ ((s.dropWhile isPySpace).reverse.takeWhile isPySpace).reverse := by
  have h := List.takeWhile_append_dropWhile isPySpace (s.dropWhile isPySpace).reverse
  have h2 := congrArg List.reverse h
  rw [List.reverse_append, List.reverse_reverse] at h2
  exact h2.symm

theorem strip_decomp (s : List Char) :
    ∃ t1 t2, s = t1 ++ (strip s ++ t2) ∧
      (∀ c ∈ t1, isPySpace c = true) ∧ (∀ c ∈ t2, isPySpace c = true) := by
  refine ⟨s.takeWhile isPySpace,
    ((s.dropWhile isPySpace).reverse.takeWhile isPySpace).reverse, ?_, ?_, ?_⟩
  · conv_lhs => rw [← List.takeWhile_append_dropWhile isPySpace s]
    exact congrArg (List.takeWhile isPySpace s ++ ·) (dropWhile_eq_strip_append s)
  · exact fun c hc => List.mem_takeWhile_imp hc
  · exact fun c hc => List.mem_takeWhile_imp (List.mem_reverse.mp hc)

theorem strip_reverse_eq (s : List Char) :
    (strip s).reverse = (s.dropWhile isPySpace).reverse.dropWhile isPySpace :=
  List.reverse_reverse _

theorem strip_eq_nil_iff (s : List Char) :
    strip s = [] ↔ ∀ c ∈ s, isPySpace c = true := by
  constructor
  · intro h c hc
    obtain ⟨t1, t2, hs, h1, h2⟩ := strip_decomp s
    rw [h] at hs
    rw [hs] at hc
    simp only [List.nil_append, List.mem_append] at hc
    cases hc with
    | inl hc => exact h1 c hc
    | inr hc => exact h2 c hc
  · intro h
    have hd : s.dropWhile isPySpace = [] := List.dropWhile_eq_nil_iff.mpr h
    simp [strip, hd]

theorem strip_ne_nil_iff (s : List Char) :
    strip s ≠ [] ↔ ∃ c ∈ s, isPySpace c = false := by
  rw [ne_eq, strip_eq_nil_iff]
  push_neg
  constructor
  · intro ⟨c, hc, h⟩
    exact ⟨c, hc, by simpa using h⟩
  · intro ⟨c, hc, h⟩
    exact ⟨c, hc, by simp [h]⟩

theorem strip_last_not_space (s : List Char) (a : Char) (t : List Char)
    (h : (strip s).reverse = a :: t) : isPySpace a = false := by
  rw [strip_reverse_eq] at h
  exact dropWhile_head_false h

theorem strip_head_not_space (s : List Char) (a : Char) (t : List Char)
    (h : strip s = a :: t) : isPySpace a = false := by
  have hd := dropWhile_eq_strip_append s
  rw [h] at hd
  exact dropWhile_head_false hd

theorem mem_strip_nonspace (s : List Char) (h : strip s ≠ []) :
    ∃ c ∈ strip s, isPySpace c = false := by
  match hr : (strip s).reverse with
  | [] => exact absurd (by simpa using congrArg List.reverse hr) h
  | a :: t =>
    refine ⟨a, ?_, strip_last_not_space s a t hr⟩
    rw [← List.mem_reverse, hr]
    exact List.mem_cons_self a t

theorem cjkCount_append (a b : List Char) :
    cjkCount (a ++ b) = cjkCount a + cjkCount b := by
  simp [cjkCount, List.filter_append]

theorem cjkCount_of_space (l : List Char) (h : ∀ c ∈ l, isPySpace c = true) :
    cjkCount l = 0 := by
  have : l.filter isCJK = [] :=
    List.filter_eq_nil_iff.mpr fun c hc => by simp [space_not_cjk c (h c hc)]
  simp [cjkCount, this]

theorem cjkCount_strip (s : List Char) : cjkCount (strip s) = cjkCount s := by
  obtain ⟨t1, t2, hs, h1, h2⟩ := strip_decomp s
  conv_rhs => rw [hs]
  rw [cjkCount_append, cjkCount_append, cjkCount_of_space t1 h1, cjkCount_of_space t2 h2]
  omega

theorem length_strip_le (s : List Char) : (strip s).length ≤ s.length := by
  obtain ⟨t1, t2, hs, _, _⟩ := strip_decomp s
  conv_rhs => rw [hs]
  simp
  omega

theorem cjkCount_le_length (s : List Char) : cjkCount s ≤ s.length :=
  List.length_filter_le _ _

theorem estimate_tokens_nil : estimate_tokens [] = 0 := rfl

theorem estimate_strip_le (s : List Char) :
    estimate_tokens (strip s) ≤ estimate_tokens s := by
  by_cases hnil : strip s = []
  · simp [hnil, estimate_tokens]
  · have hs : s ≠ [] := by
      intro h
      rw [h] at hnil
      exact hnil rfl
    rw [estimate_tokens, estimate_tokens, if_neg hnil, if_neg hs]
    have hc := cjkCount_strip s
    have hl := length_strip_le s
    have hcl := cjkCount_le_length (strip s)
    refine max_le_max (Nat.add_le_add ?_ ?_) le_rfl
    · rw [hc]
    · exact Nat.div_le_div_right (by omega)

theorem ceil_div_three (a : Nat) : ⌈(a : ℚ) / 3⌉ = (((a + 2) / 3 : Nat) : ℤ) := by
  set k : Nat := (a + 2) / 3 with hk
  have h1 : (3 : ℚ) * k < a + 3 := by exact_mod_cast show 3 * k < a + 3 by omega
  have h2 : (a : ℚ) ≤ 3 * k := by exact_mod_cast show a ≤ 3 * k by omega
  rw [Int.ceil_eq_iff]
  constructor
  · rw [lt_div_iff₀ (by norm_num : (0 : ℚ) < 3)]
    push_cast
    linarith
  · rw [div_le_iff₀ (by norm_num : (0 : ℚ) < 3)]
    push_cast
    linarith

theorem ceil_div_four (a : Nat) : ⌈(a : ℚ) / 4⌉ = (((a + 3) / 4 : Nat) : ℤ) := by
  set k : Nat := (a + 3) / 4 with hk
  have h1 : (4 : ℚ) * k < a + 4 := by exact_mod_cast show 4 * k < a + 4 by omega
  have h2 : (a : ℚ) ≤ 4 * k := by exact_mod_cast show a ≤ 4 * k by omega
  rw [Int.ceil_eq_iff]
  constructor
  · rw [lt_div_iff₀ (by norm_num : (0 : ℚ) < 4)]
    push_cast
    linarith
  · rw [div_le_iff₀ (by norm_num : (0 : ℚ) < 4)]
    push_cast
    linarith

/-! ### Facts about `forceSplitGo` / `force_split` -/

theorem forceSplitGo_flatten (fuel : Nat) : ∀ (s : List Char) (m : Nat),
    (forceSplitGo fuel s m).flatten = s := by
  induction fuel with
  | zero =>
    intro s m
    cases s with
    | nil => rfl
    | cons c cs =>
      rw [show forceSplitGo 0 (c :: cs) m = [c :: cs] from rfl]
      simp
  | succ fuel ih =>
    intro s m
    cases s with
    | nil => rfl
    | cons c cs =>
      rw [show forceSplitGo (fuel + 1) (c :: cs) m =
        (c :: cs).take m :: forceSplitGo fuel ((c :: cs).drop m) m from rfl]
      simp only [List.flatten_cons, ih]
      exact List.take_append_drop _ _

theorem forceSplitGo_length_le (fuel : Nat) : ∀ (s : List Char) (m : Nat),
    s.length ≤ fuel → 1 ≤ m → ∀ p ∈ forceSplitGo fuel s m, p.length ≤ m := by
  induction fuel with
  | zero =>
    intro s m hf _ p hp
    have : s = [] := by
      cases s with
      | nil => rfl
      | cons c cs => simp at hf
    subst this
    simp [forceSplitGo] at hp
  | succ fuel ih =>
    intro s m hf hm p hp
    cases s with
    | nil => simp [forceSplitGo] at hp
    | cons c cs =>
      rw [show forceSplitGo (fuel + 1) (c :: cs) m =
        (c :: cs).take m :: forceSplitGo fuel ((c :: cs).drop m) m from rfl] at hp
      rcases List.mem_cons.mp hp with h | h
      · subst h
        simp [List.length_take]
      · refine ih _ m ?_ hm p h
        simp only [List.length_cons] at hf
        simp only [List.length_drop, List.length_cons]
        omega

theorem forceSplitGo_ne_nil (fuel : Nat) (s : List Char) (m : Nat) (hs : s ≠ []) :
    forceSplitGo fuel s m ≠ [] := by
  cases fuel with
  | zero => cases s with
    | nil => exact absurd rfl hs
    | cons c cs => simp [forceSplitGo]
  | succ fuel => cases s with
    | nil => exact absurd rfl hs
    | cons c cs => simp [forceSplitGo]

theorem forceSplitGo_dropLast (fuel : Nat) : ∀ (s : List Char) (m : Nat),
    s.length ≤ fuel → 1 ≤ m → ∀ p ∈ (forceSplitGo fuel s m).dropLast, p.length = m := by
  induction fuel with
  | zero =>
    intro s m hf _ p hp
    have : s = [] := by
      cases s with
      | nil => rfl
      | cons c cs => simp at hf
    subst this
    simp [forceSplitGo] at hp
  | succ fuel ih =>
    intro s m hf hm p hp
    cases s with
    | nil => simp [forceSplitGo] at hp
    | cons c cs =>
      rw [show forceSplitGo (fuel + 1) (c :: cs) m =
        (c :: cs).take m :: forceSplitGo fuel ((c :: cs).drop m) m from rfl] at hp
      by_cases hdrop : (c :: cs).drop m = []
      · have : forceSplitGo fuel ((c :: cs).drop m) m = [] := by
          rw [hdrop]
          cases fuel <;> rfl
        rw [this, List.dropLast_single] at hp
        simp at hp
      · have hne := forceSplitGo_ne_nil fuel ((c :: cs).drop m) m hdrop
        rw [List.dropLast_cons_of_ne_nil hne] at hp
        have hlen : m < (c :: cs).length := by
          by_contra hc
          exact hdrop (List.drop_eq_nil_of_le (by omega))
        rcases List.mem_cons.mp hp with h | h
        · subst h
          simp only [List.length_cons] at hlen
          simp only [List.length_take, List.length_cons]
          omega
        · refine ih _ m ?_ hm p h
          simp only [List.length_cons] at hf hlen
          simp only [List.length_drop, List.length_cons]
          omega

/-! ### Claim theorems C5 and C10 -/

/-- Claim C5: `estimate_tokens("")` is `0`; on any non-empty string the
estimate is at least `1` and equals
`ceil(cjk_chars / 1.5) + ceil(other_chars / 4)`. -/
theorem c5_estimate_tokens :
    estimate_tokens [] = 0 ∧
    ∀ s : List Char, s ≠ [] →
      1 ≤ estimate_tokens s ∧
      (estimate_tokens s : ℤ) =
        ⌈(cjkCount s : ℚ) / 1.5⌉ + ⌈((s.length - cjkCount s : Nat) : ℚ) / 4⌉ := by
  refine ⟨rfl, ?_⟩
  intro s hs
  have hcl : cjkCount s ≤ s.length := cjkCount_le_length s
  have hlen : 1 ≤ s.length := List.length_pos.mpr hs
  have hsum : 1 ≤ (2 * cjkCount s + 2) / 3 + ((s.length - cjkCount s) + 3) / 4 := by omega
  have hval : estimate_tokens s =
      (2 * cjkCount s + 2) / 3 + ((s.length - cjkCount s) + 3) / 4 := by
    rw [estimate_tokens, if_neg hs]
    omega
  have h15 : ⌈(cjkCount s : ℚ) / 1.5⌉ = (((2 * cjkCount s + 2) / 3 : Nat) : ℤ) := by
    have hq : (cjkCount s : ℚ) / 1.5 = ((2 * cjkCount s : Nat) : ℚ) / 3 := by
      rw [show (1.5 : ℚ) = 3 / 2 by norm_num]
      push_cast
      field_simp
      ring
    rw [hq, ceil_div_three]
  have h4 : ⌈((s.length - cjkCount s : Nat) : ℚ) / 4⌉ =
      ((((s.length - cjkCount s) + 3) / 4 : Nat) : ℤ) := ceil_div_four _
  refine ⟨by rw [hval]; exact hsum, ?_⟩
  rw [hval, h15, h4]
  push_cast
  ring

/-- Witness for C5 at the concrete non-empty input `"ab"`. -/
theorem c5_estimate_tokens_witness :
    "ab".data ≠ ([] : List Char) ∧
    (1 ≤ estimate_tokens "ab".data ∧
      (estimate_tokens "ab".data : ℤ) =
        ⌈(cjkCount "ab".data : ℚ) / 1.5⌉ +
          ⌈(("ab".data.length - cjkCount "ab".data : Nat) : ℚ) / 4⌉) :=
  ⟨by decide, c5_estimate_tokens.2 "ab".data (by decide)⟩

/-- Claim C10: for `max_chars > 0`, `_force_split` returns pieces whose
concatenation is exactly the input, every piece is at most `max_chars`
long, every piece but the last is exactly `max_chars` long, and the
result is empty exactly for the empty string. -/
theorem c10_force_split (s : List Char) (m : Nat) (hm : 1 ≤ m) :
    ∃ l, force_split s m = some l ∧ l.flatten = s ∧
      (∀ p ∈ l, p.length ≤ m) ∧ (∀ p ∈ l.dropLast, p.length = m) ∧
      (l = [] ↔ s = []) := by
  refine ⟨forceSplitGo s.length s m, ?_, forceSplitGo_flatten _ s m,
    forceSplitGo_length_le _ s m le_rfl hm, forceSplitGo_dropLast _ s m le_rfl hm, ?_⟩
  · rw [force_split, if_neg (by omega)]
  · constructor
    · intro h
      by_contra hs
      exact forceSplitGo_ne_nil _ s m hs h
    · intro h
      subst h
      rfl

/-- Witness for C10 at the concrete input `"abc"` with window `2`. -/
theorem c10_force_split_witness :
    1 ≤ 2 ∧
    ∃ l, force_split "abc".data 2 = some l ∧ l.flatten = "abc".data ∧
      (∀ p ∈ l, p.length ≤ 2) ∧ (∀ p ∈ l.dropLast, p.length = 2) ∧
      (l = [] ↔ "abc".data = []) :=
  ⟨by decide, c10_force_split "abc".data 2 (by decide)⟩

/-! ### Claim C4 (single-segment fast path) and claim C1 (content loss) -/

/-- Claim C4, amended: for non-blank `T` with `estimate_tokens T ≤ budget`,
`chunk_text` returns exactly one segment equal to `T` itself — not
trimmed (chunker.py line 65 returns `[text]` unmodified). -/
theorem c4_amended (text : List Char) (maxTokens : Nat) (prefs : Option (List Boundary))
    (hnb : strip text ≠ []) (hest : estimate_tokens text ≤ maxTokens) :
    chunk_text text maxTokens prefs = some [text] := by
  rw [chunk_text, if_neg hnb, if_pos hest]

/-- Counterexample to claim C4 as stated: `" a "` fits the budget, and the
single returned segment is `" a "` itself, not its trim `"a"`. -/
theorem c4_counterexample :
    chunk_text " a ".data 4000 none = some [" a ".data] ∧
      " a ".data ≠ strip " a ".data := by
  constructor
  · decide
  · decide

/-- Witness for the amended C4 at the concrete input `" a "`. -/
theorem c4_amended_witness :
    strip " a ".data ≠ [] ∧ estimate_tokens " a ".data ≤ 4000 ∧
      chunk_text " a ".data 4000 none = some [" a ".data] :=
  ⟨by decide, by decide, c4_amended " a ".data 4000 none (by decide) (by decide)⟩

/-- Claim C1: the failing input.  `chunk_text("One. Two", 1)` runs the
sentence split, whose loop drops the trailing part after the last
separator match (`for i in range(0, len(parts) - 1, 2)`, chunker.py
line 94): the text `"Two"` is silently lost, so concatenating the
returned segments does not reproduce the input's non-whitespace
content. -/
theorem c1_content_loss :
    chunk_text "One. Two".data 1 none = some ["One.".data] ∧
      (["One.".data] : List (List Char)).flatten.filter (fun c => !isPySpace c) ≠
        "One. Two".data.filter (fun c => !isPySpace c) := by
  constructor
  · decide
  · decide

/-! ### Claim C2: the per-segment budget invariant -/

theorem getLastD_mem {α : Type u_1} (d : α) :
    ∀ (l : List α), l ≠ [] → l.getLastD d ∈ l := by
  intro l
  induction l with
  | nil => intro h; exact absurd rfl h
  | cons a t ih =>
    intro _
    cases t with
    | nil => simp
    | cons b u =>
      rw [show (a :: b :: u).getLastD d = (b :: u).getLastD d by
        simp [List.getLastD_eq_getLast?]]
      exact List.mem_cons_of_mem a (ih (by simp))

theorem force_split_some (text : List Char) (m : Nat) (l : List (List Char))
    (h : force_split text m = some l) :
    1 ≤ m ∧ l = forceSplitGo text.length text m := by
  rw [force_split] at h
  by_cases hm : m = 0
  · rw [if_pos hm] at h
    exact Option.noConfusion h
  · rw [if_neg hm] at h
    injection h with h
    exact ⟨by omega, h.symm⟩

theorem merge_go_bound (maxTokens : Nat) :
    ∀ (chunks : List (List Char)) (current : List Char) (out : List (List Char)),
      merge_go maxTokens current chunks = some out →
      (estimate_tokens current ≤ maxTokens ∨ current.length ≤ 3 * maxTokens) →
      ∀ c ∈ out, estimate_tokens c ≤ maxTokens ∨ c.length ≤ 3 * maxTokens := by
  intro chunks
  induction chunks with
  | nil =>
    intro current out h hcur c hc
    simp only [merge_go] at h
    by_cases h0 : current = []
    · rw [if_pos h0] at h
      injection h with h
      subst h
      simp at hc
    · rw [if_neg h0] at h
      injection h with h
      subst h
      rcases List.mem_singleton.mp hc with rfl
      exact hcur
  | cons chunk rest ih =>
    intro current out h hcur c hc
    simp only [merge_go] at h
    by_cases hfit :
        estimate_tokens (if current = [] then chunk else current ++ '\n' :: chunk) ≤ maxTokens
    · rw [if_pos hfit] at h
      exact ih _ out h (Or.inl hfit) c hc
    · rw [if_neg hfit] at h
      by_cases hbig : maxTokens < estimate_tokens chunk
      · rw [if_pos hbig] at h
        cases hfs : force_split chunk (maxTokens * 3) with
        | none =>
          rw [hfs] at h
          exact Option.noConfusion h
        | some subs =>
          rw [hfs] at h
          obtain ⟨hm3, hsubs⟩ := force_split_some _ _ _ hfs
          obtain ⟨t, ht, rfl⟩ := Option.map_eq_some'.mp h
          have hsubs_len : ∀ p ∈ subs, p.length ≤ 3 * maxTokens := by
            intro p hp
            rw [hsubs] at hp
            have := forceSplitGo_length_le chunk.length chunk (maxTokens * 3) le_rfl hm3 p hp
            omega
          rcases List.mem_append.mp hc with hc1 | hc2
          · rcases List.mem_append.mp hc1 with hc0 | hcd
            · by_cases h0 : current = []
              · rw [if_pos h0] at hc0
                simp at hc0
              · rw [if_neg h0] at hc0
                rcases List.mem_singleton.mp hc0 with rfl
                exact hcur
            · exact Or.inr (hsubs_len c (List.mem_of_mem_dropLast hcd))
          · refine ih _ t ht ?_ c hc2
            by_cases hse : subs = []
            · rw [hse]
              exact Or.inl (by rw [show ([] : List (List Char)).getLastD [] = [] from rfl,
                estimate_tokens_nil]; omega)
            · exact Or.inr (hsubs_len _ (getLastD_mem [] subs hse))
      · rw [if_neg hbig] at h
        obtain ⟨t, ht, rfl⟩ := Option.map_eq_some'.mp h
        rcases List.mem_append.mp hc with hc0 | hc2
        · by_cases h0 : current = []
          · rw [if_pos h0] at hc0
            simp at hc0
          · rw [if_neg h0] at hc0
            rcases List.mem_singleton.mp hc0 with rfl
            exact hcur
        · exact ih _ t ht (Or.inl (Nat.not_lt.mp hbig)) c hc2

theorem merge_small_chunks_bound (chunks : List (List Char)) (maxTokens : Nat)
    (out : List (List Char)) (h : merge_small_chunks chunks maxTokens = some out) :
    ∀ c ∈ out, estimate_tokens c ≤ maxTokens ∨ c.length ≤ 3 * maxTokens := by
  rw [merge_small_chunks] at h
  by_cases hc : chunks = []
  · rw [if_pos hc] at h
    injection h with h
    subst h
    simp
  · rw [if_neg hc] at h
    exact merge_go_bound maxTokens chunks [] out h
      (Or.inl (by rw [estimate_tokens_nil]; omega))

theorem process_chunks_bound :
    ∀ (initial : List (List Char)) (maxTokens : Nat) (allow : Bool) (out : List (List Char)),
      process_chunks initial maxTokens allow = some out →
      ∀ c ∈ out, estimate_tokens c ≤ maxTokens ∨ c.length ≤ 3 * maxTokens := by
  intro initial
  induction initial with
  | nil =>
    intro maxTokens allow out h c hc
    simp only [process_chunks] at h
    injection h with h
    subst h
    simp at hc
  | cons chunk rest ih =>
    intro maxTokens allow out h c hc
    simp only [process_chunks] at h
    cases hh : (if estimate_tokens chunk ≤ maxTokens then some [chunk]
        else if allow then
          (split_by_sentences chunk).bind fun ss => merge_small_chunks ss maxTokens
        else force_split chunk (maxTokens * 3)) with
    | none =>
      rw [hh] at h
      cases hr : process_chunks rest maxTokens allow with
      | none => rw [hr] at h; exact Option.noConfusion h
      | some t => rw [hr] at h; exact Option.noConfusion h
    | some hd =>
      rw [hh] at h
      cases hr : process_chunks rest maxTokens allow with
      | none => rw [hr] at h; exact Option.noConfusion h
      | some t =>
        rw [hr] at h
        injection h with h
        subst h
        rcases List.mem_append.mp hc with h1 | h2
        · by_cases hfit : estimate_tokens chunk ≤ maxTokens
          · rw [if_pos hfit] at hh
            injection hh with hh
            subst hh
            rcases List.mem_singleton.mp h1 with rfl
            exact Or.inl hfit
          · rw [if_neg hfit] at hh
            by_cases hal : allow = true
            · rw [if_pos hal] at hh
              obtain ⟨ss, _, hms⟩ := Option.bind_eq_some.mp hh
              exact merge_small_chunks_bound ss maxTokens hd hms c h1
            · rw [if_neg hal] at hh
              obtain ⟨hm3, hsubs⟩ := force_split_some _ _ _ hh
              rw [hsubs] at h1
              have := forceSplitGo_length_le chunk.length chunk (maxTokens * 3) le_rfl hm3 c h1
              omega
        · exact ih maxTokens allow t hr c h2

theorem strip_match_eq (q c : List Char)
    (h : (match strip q with | [] => none | r => some r) = some c) : strip q = c := by
  cases hsq : strip q with
  | nil =>
    rw [hsq] at h
    exact Option.noConfusion h
  | cons a t =>
    rw [hsq] at h
    injection h

/-- Claim C2, amended: whenever `chunk_text` returns normally, every
returned segment either fits the token budget or is a piece produced by
the character-window force split, hence at most `3 * budget` characters
long (such pieces can still exceed the budget on CJK-dense text). -/
theorem c2_amended (text : List Char) (maxTokens : Nat) (prefs : Option (List Boundary))
    (l : List (List Char)) (h : chunk_text text maxTokens prefs = some l) :
    ∀ c ∈ l, estimate_tokens c ≤ maxTokens ∨ c.length ≤ 3 * maxTokens := by
  intro c hc
  rw [chunk_text] at h
  by_cases hb : strip text = []
  · rw [if_pos hb] at h
    injection h with h
    subst h
    simp at hc
  · rw [if_neg hb] at h
    by_cases hfit : estimate_tokens text ≤ maxTokens
    · rw [if_pos hfit] at h
      injection h with h
      subst h
      rcases List.mem_singleton.mp hc with rfl
      exact Or.inl hfit
    · rw [if_neg hfit] at h
      obtain ⟨out, hout, rfl⟩ := Option.map_eq_some'.mp h
      obtain ⟨q, hq, hcq⟩ := List.mem_filterMap.mp hc
      have hqc := strip_match_eq q c hcq
      have hqbound : estimate_tokens q ≤ maxTokens ∨ q.length ≤ 3 * maxTokens := by
        by_cases hp : Boundary.paragraph ∈ prefs.getD [Boundary.paragraph, Boundary.sentence]
        · rw [if_pos hp] at hout
          exact process_chunks_bound _ _ _ _ hout q hq
        · rw [if_neg hp] at hout
          exact process_chunks_bound _ _ _ _ hout q hq
      rcases hqbound with h1 | h2
      · exact Or.inl (le_trans (by rw [← hqc]; exact estimate_strip_le q) h1)
      · exact Or.inr (le_trans (by rw [← hqc]; exact length_strip_le q) h2)

/-- Counterexample to claim C2 as stated: with budget 1, the CJK text
`"字字字"` (no sentence or paragraph boundaries) is returned as a single
force-split segment whose estimate is 2 > 1. -/
theorem c2_counterexample :
    chunk_text "字字字".data 1 none = some ["字字字".data] ∧
      ¬ estimate_tokens "字字字".data ≤ 1 := by
  constructor
  · decide
  · decide

/-- Witness for the amended C2 at the concrete input `"字字字"`, budget 1. -/
theorem c2_amended_witness :
    chunk_text "字字字".data 1 none = some ["字字字".data] ∧
      ∀ c ∈ ["字字字".data], estimate_tokens c ≤ 1 ∨ c.length ≤ 3 * 1 :=
  ⟨by decide, c2_amended "字字字".data 1 none ["字字字".data] (by decide)⟩

/-! ### Claim C3: termination and non-emptiness of `chunk_text` -/

theorem strip_match_some (q : List Char) (h : strip q ≠ []) :
    (match strip q with | [] => none | r => some r) = some (strip q) := by
  cases hsq : strip q with
  | nil => exact absurd hsq h
  | cons a t => rfl

theorem sentencesFromParts_mem (ps : List (List Char × List Char)) (q : List Char)
    (hq : q ∈ sentencesFromParts ps) : ∃ x, strip x = q ∧ q ≠ [] := by
  obtain ⟨pr, _, hpr⟩ := List.mem_filterMap.mp hq
  have heq := strip_match_eq _ _ hpr
  refine ⟨pr.1 ++ pr.2, heq, ?_⟩
  intro hnil
  rw [hnil] at heq
  rw [heq] at hpr
  exact Option.noConfusion hpr

theorem sentence_candidates_strip (text q : List Char)
    (hq : q ∈ sentence_candidates text) : ∃ x, strip x = q ∧ q ≠ [] := by
  rw [sentence_candidates] at hq
  cases he : pySplitParts matchEngAt text with
  | mk ps t =>
    rw [he] at hq
    cases ps with
    | cons a b => exact sentencesFromParts_mem _ _ hq
    | nil =>
      cases hc2 : pySplitParts matchCJKAt text with
      | mk ps2 t2 =>
        rw [hc2] at hq
        cases ps2 with
        | cons a b => exact sentencesFromParts_mem _ _ hq
        | nil =>
          cases hc3 : pySplitParts matchNLAt text with
          | mk ps3 t3 =>
            rw [hc3] at hq
            cases ps3 with
            | cons a b => exact sentencesFromParts_mem _ _ hq
            | nil => simp at hq

theorem split_by_sentences_isSome (text : List Char) :
    ∃ ss, split_by_sentences text = some ss := by
  rw [split_by_sentences]
  cases sentence_candidates text with
  | nil =>
    rw [force_split, if_neg (by norm_num : ¬ (500 = 0))]
    exact ⟨_, rfl⟩
  | cons a b => exact ⟨_, rfl⟩

theorem merge_go_isSome (maxTokens : Nat) (hm : 1 ≤ maxTokens) :
    ∀ (chunks : List (List Char)) (current : List Char),
      ∃ out, merge_go maxTokens current chunks = some out := by
  intro chunks
  induction chunks with
  | nil => intro current; exact ⟨_, rfl⟩
  | cons chunk rest ih =>
    intro current
    simp only [merge_go]
    by_cases hfit :
        estimate_tokens (if current = [] then chunk else current ++ '\n' :: chunk) ≤ maxTokens
    · rw [if_pos hfit]
      exact ih _
    · rw [if_neg hfit]
      by_cases hbig : maxTokens < estimate_tokens chunk
      · rw [if_pos hbig,
          show force_split chunk (maxTokens * 3) =
            some (forceSplitGo chunk.length chunk (maxTokens * 3)) from by
          rw [force_split, if_neg (by omega)]]
        obtain ⟨t, ht⟩ := ih ((forceSplitGo chunk.length chunk (maxTokens * 3)).getLastD [])
        refine ⟨(if current = [] then [] else [current]) ++
          (forceSplitGo chunk.length chunk (maxTokens * 3)).dropLast ++ t, ?_⟩
        show Option.map _
          (merge_go maxTokens
            ((forceSplitGo chunk.length chunk (maxTokens * 3)).getLastD []) rest) = _
        rw [ht]
        rfl
      · rw [if_neg hbig]
        obtain ⟨t, ht⟩ := ih chunk
        refine ⟨(if current = [] then [] else [current]) ++ t, ?_⟩
        show Option.map _ (merge_go maxTokens chunk rest) = _
        rw [ht]
        rfl

theorem merge_small_chunks_isSome (chunks : List (List Char)) (maxTokens : Nat)
    (hm : 1 ≤ maxTokens) : ∃ out, merge_small_chunks chunks maxTokens = some out := by
  rw [merge_small_chunks]
  by_cases hc : chunks = []
  · rw [if_pos hc]
    exact ⟨_, rfl⟩
  · rw [if_neg hc]
    exact merge_go_isSome maxTokens hm chunks []

theorem process_chunks_isSome (initial : List (List Char)) (maxTokens : Nat)
    (allow : Bool) (hm : 1 ≤ maxTokens) :
    ∃ out, process_chunks initial maxTokens allow = some out := by
  induction initial with
  | nil => exact ⟨_, rfl⟩
  | cons chunk rest ih =>
    obtain ⟨t, ht⟩ := ih
    simp only [process_chunks]
    rw [ht]
    by_cases hfit : estimate_tokens chunk ≤ maxTokens
    · rw [if_pos hfit]
      exact ⟨_, rfl⟩
    · rw [if_neg hfit]
      by_cases hal : allow = true
      · rw [if_pos hal]
        obtain ⟨ss, hss⟩ := split_by_sentences_isSome chunk
        obtain ⟨ms, hms⟩ := merge_small_chunks_isSome ss maxTokens hm
        rw [hss, show (some ss).bind (fun ss => merge_small_chunks ss maxTokens) =
          merge_small_chunks ss maxTokens from rfl, hms]
        exact ⟨_, rfl⟩
      · rw [if_neg hal,
          show force_split chunk (maxTokens * 3) =
            some (forceSplitGo chunk.length chunk (maxTokens * 3)) from by
          rw [force_split, if_neg (by omega)]]
        exact ⟨_, rfl⟩

theorem lastNewlinePos_lt (l : List Char) :
    ∀ i, lastNewlinePos l = some i → i < l.length := by
  induction l with
  | nil => intro i h; exact Option.noConfusion h
  | cons c rest ih =>
    intro i h
    simp only [lastNewlinePos] at h
    cases hr : lastNewlinePos rest with
    | some k =>
      rw [hr] at h
      injection h with h
      subst h
      have := ih k hr
      simp only [List.length_cons]
      omega
    | none =>
      rw [hr] at h
      by_cases hc : (c == '\n') = true
      · rw [if_pos hc] at h
        injection h with h
        subst h
        simp
      · rw [if_neg hc] at h
        exact Option.noConfusion h

theorem matchParaAt_space (c : Char) (rest : List Char) (j : Nat)
    (h : matchParaAt c rest = some j) :
    isPySpace c = true ∧ (∀ x ∈ rest.take j, isPySpace x = true) := by
  rw [matchParaAt] at h
  by_cases hc : (c == '\n') = true
  · rw [if_pos hc] at h
    have hcv : c = '\n' := by simpa using hc
    refine ⟨by rw [hcv]; decide, ?_⟩
    obtain ⟨i, hi, hj⟩ := Option.map_eq_some'.mp h
    subst hj
    have hilt := lastNewlinePos_lt _ i hi
    intro x hx
    have heq : rest.take (i + 1) = (rest.takeWhile isPySpace).take (i + 1) := by
      conv_lhs => rw [← List.takeWhile_append_dropWhile isPySpace rest]
      rw [List.take_append_of_le_length (by omega)]
    rw [heq] at hx
    exact List.mem_takeWhile_imp (List.take_subset _ _ hx)
  · rw [if_neg hc] at h
    exact Option.noConfusion h

theorem splitKeepGo_para_nonws (fuel : Nat) :
    ∀ (s acc : List Char),
      s.length ≤ fuel →
      ((∃ c ∈ s, isPySpace c = false) ∨ (∃ c ∈ acc, isPySpace c = false)) →
      ∃ p ∈ ((splitKeepGo matchParaAt fuel acc s).1.map Prod.fst ++
          [(splitKeepGo matchParaAt fuel acc s).2]),
        ∃ c ∈ p, isPySpace c = false := by
  induction fuel with
  | zero =>
    intro s acc hf hex
    have hs : s = [] := by
      cases s with
      | nil => rfl
      | cons a b => simp at hf
    subst hs
    rcases hex with ⟨c, hc, _⟩ | ⟨c, hc, hcw⟩
    · simp at hc
    · exact ⟨acc.reverse, by simp [splitKeepGo], c, List.mem_reverse.mpr hc, hcw⟩
  | succ fuel ih =>
    intro s acc hf hex
    cases s with
    | nil =>
      rcases hex with ⟨c, hc, _⟩ | ⟨c, hc, hcw⟩
      · simp at hc
      · exact ⟨acc.reverse, by simp [splitKeepGo], c, List.mem_reverse.mpr hc, hcw⟩
    | cons c rest =>
      have hrf : rest.length ≤ fuel := by
        simp only [List.length_cons] at hf
        omega
      cases hm : matchParaAt c rest with
      | none =>
        have hred : splitKeepGo matchParaAt (fuel + 1) acc (c :: rest) =
            splitKeepGo matchParaAt fuel (c :: acc) rest := by
          simp only [splitKeepGo, hm]
        rw [hred]
        apply ih rest (c :: acc) hrf
        rcases hex with ⟨x, hx, hxw⟩ | ⟨x, hx, hxw⟩
        · rcases List.mem_cons.mp hx with rfl | hx'
          · exact Or.inr ⟨x, List.mem_cons_self x acc, hxw⟩
          · exact Or.inl ⟨x, hx', hxw⟩
        · exact Or.inr ⟨x, List.mem_cons_of_mem c hx, hxw⟩
      | some j =>
        obtain ⟨hcw, hjw⟩ := matchParaAt_space c rest j hm
        cases hres : splitKeepGo matchParaAt fuel [] (rest.drop j) with
        | mk ps t =>
          have hred : splitKeepGo matchParaAt (fuel + 1) acc (c :: rest) =
              ((acc.reverse, c :: rest.take j) :: ps, t) := by
            simp only [splitKeepGo, hm, hres]
          rw [hred]
          rcases hex with ⟨x, hx, hxw⟩ | ⟨x, hx, hxw⟩
          · rcases List.mem_cons.mp hx with rfl | hx'
            · rw [hcw] at hxw
              exact Bool.noConfusion hxw
            · have hx2 : x ∈ rest.take j ++ rest.drop j := by
                rw [List.take_append_drop]
                exact hx'
              rcases List.mem_append.mp hx2 with h1 | h2
              · rw [hjw x h1] at hxw
                exact Bool.noConfusion hxw
              · have hdf : (rest.drop j).length ≤ fuel := by
                  rw [List.length_drop]
                  omega
                obtain ⟨p, hp, hpw⟩ := ih (rest.drop j) [] hdf (Or.inl ⟨x, h2, hxw⟩)
                rw [hres] at hp
                exact ⟨p, List.mem_cons_of_mem _ hp, hpw⟩
          · exact ⟨acc.reverse, List.mem_cons_self _ _, x, List.mem_reverse.mpr hx, hxw⟩

theorem split_by_paragraphs_nonws (text : List Char) (h : strip text ≠ []) :
    ∃ q ∈ split_by_paragraphs text, ∃ c ∈ q, isPySpace c = false := by
  obtain ⟨c0, hc0, hc0w⟩ := (strip_ne_nil_iff text).mp h
  obtain ⟨p, hp, hpw⟩ :=
    splitKeepGo_para_nonws text.length text [] le_rfl (Or.inl ⟨c0, hc0, hc0w⟩)
  have hsp : strip p ≠ [] := (strip_ne_nil_iff p).mpr hpw
  obtain ⟨c1, hc1, hc1w⟩ := mem_strip_nonspace p hsp
  refine ⟨strip p, ?_, c1, hc1, hc1w⟩
  rw [split_by_paragraphs]
  cases hparts : pySplitParts matchParaAt text with
  | mk ps t =>
    apply List.mem_filterMap.mpr
    refine ⟨p, ?_, strip_match_some p hsp⟩
    rw [show splitKeepGo matchParaAt text.length [] text = (ps, t) from hparts] at hp
    exact hp

theorem mem_dropLast_or_getLastD {α : Type u_1} (d : α) (l : List α) (hl : l ≠ [])
    (x : α) (hx : x ∈ l) : x ∈ l.dropLast ∨ x = l.getLastD d := by
  have hgl : l.getLastD d = l.getLast hl := by
    rw [List.getLastD_eq_getLast?, List.getLast?_eq_getLast l hl]
    rfl
  rw [hgl]
  conv at hx => rw [← List.dropLast_append_getLast hl]
  rcases List.mem_append.mp hx with h1 | h1
  · exact Or.inl h1
  · exact Or.inr (List.mem_singleton.mp h1)

theorem merge_go_nonws (maxTokens : Nat) :
    ∀ (chunks : List (List Char)) (current : List Char) (out : List (List Char)),
      merge_go maxTokens current chunks = some out →
      ((∃ p ∈ chunks, ∃ c ∈ p, isPySpace c = false) ∨
        (∃ c ∈ current, isPySpace c = false)) →
      ∃ q ∈ out, ∃ c ∈ q, isPySpace c = false := by
  intro chunks
  induction chunks with
  | nil =>
    intro current out h hex
    simp only [merge_go] at h
    rcases hex with ⟨p, hp, _⟩ | ⟨c, hc, hcw⟩
    · simp at hp
    · have hcur : current ≠ [] := List.ne_nil_of_mem hc
      rw [if_neg hcur] at h
      injection h with h
      subst h
      exact ⟨current, List.mem_singleton.mpr rfl, c, hc, hcw⟩
  | cons chunk rest ih =>
    intro current out h hex
    simp only [merge_go] at h
    by_cases hfit :
        estimate_tokens (if current = [] then chunk else current ++ '\n' :: chunk) ≤ maxTokens
    · rw [if_pos hfit] at h
      apply ih _ out h
      rcases hex with ⟨p, hp, hpw⟩ | ⟨c, hc, hcw⟩
      · rcases List.mem_cons.mp hp with rfl | hp'
        · obtain ⟨c, hc, hcw⟩ := hpw
          refine Or.inr ⟨c, ?_, hcw⟩
          by_cases h0 : current = []
          · rw [if_pos h0]
            exact hc
          · rw [if_neg h0]
            exact List.mem_append.mpr (Or.inr (List.mem_cons_of_mem _ hc))
        · exact Or.inl ⟨p, hp', hpw⟩
      · refine Or.inr ⟨c, ?_, hcw⟩
        rw [if_neg (List.ne_nil_of_mem hc)]
        exact List.mem_append.mpr (Or.inl hc)
    · rw [if_neg hfit] at h
      by_cases hbig : maxTokens < estimate_tokens chunk
      · rw [if_pos hbig] at h
        cases hfs : force_split chunk (maxTokens * 3) with
        | none =>
          rw [hfs] at h
          exact Option.noConfusion h
        | some subs =>
          rw [hfs] at h
          obtain ⟨hm3, hsubs⟩ := force_split_some _ _ _ hfs
          have hflat : subs.flatten = chunk := by
            rw [hsubs]
            exact forceSplitGo_flatten _ _ _
          obtain ⟨t, ht, rfl⟩ := Option.map_eq_some'.mp h
          rcases hex with ⟨p, hp, hpw⟩ | ⟨c, hc, hcw⟩
          · rcases List.mem_cons.mp hp with rfl | hp'
            · obtain ⟨c, hc, hcw⟩ := hpw
              rw [← hflat] at hc
              obtain ⟨sub, hsub, hcsub⟩ := List.mem_flatten.mp hc
              have hsubs_ne : subs ≠ [] := List.ne_nil_of_mem hsub
              rcases mem_dropLast_or_getLastD [] subs hsubs_ne sub hsub with hdl | hlast
              · refine ⟨sub, ?_, c, hcsub, hcw⟩
                exact List.mem_append.mpr (Or.inl (List.mem_append.mpr (Or.inr hdl)))
              · obtain ⟨q, hq, hqw⟩ :=
                  ih _ t ht (Or.inr ⟨c, by rw [← hlast]; exact hcsub, hcw⟩)
                exact ⟨q, List.mem_append.mpr (Or.inr hq), hqw⟩
            · obtain ⟨q, hq, hqw⟩ := ih _ t ht (Or.inl ⟨p, hp', hpw⟩)
              exact ⟨q, List.mem_append.mpr (Or.inr hq), hqw⟩
          · refine ⟨current, ?_, c, hc, hcw⟩
            rw [if_neg (List.ne_nil_of_mem hc)]
            exact List.mem_append.mpr
              (Or.inl (List.mem_append.mpr (Or.inl (List.mem_singleton.mpr rfl))))
      · rw [if_neg hbig] at h
        obtain ⟨t, ht, rfl⟩ := Option.map_eq_some'.mp h
        rcases hex with ⟨p, hp, hpw⟩ | ⟨c, hc, hcw⟩
        · rcases List.mem_cons.mp hp with rfl | hp'
          · obtain ⟨q, hq, hqw⟩ := ih _ t ht (Or.inr hpw)
            exact ⟨q, List.mem_append.mpr (Or.inr hq), hqw⟩
          · obtain ⟨q, hq, hqw⟩ := ih _ t ht (Or.inl ⟨p, hp', hpw⟩)
            exact ⟨q, List.mem_append.mpr (Or.inr hq), hqw⟩
        · refine ⟨current, ?_, c, hc, hcw⟩
          rw [if_neg (List.ne_nil_of_mem hc)]
          exact List.mem_append.mpr (Or.inl (List.mem_singleton.mpr rfl))

theorem merge_small_chunks_nonws (chunks : List (List Char)) (maxTokens : Nat)
    (out : List (List Char)) (h : merge_small_chunks chunks maxTokens = some out)
    (hex : ∃ p ∈ chunks, ∃ c ∈ p, isPySpace c = false) :
    ∃ q ∈ out, ∃ c ∈ q, isPySpace c = false := by
  rw [merge_small_chunks] at h
  by_cases hc : chunks = []
  · obtain ⟨p, hp, _⟩ := hex
    rw [hc] at hp
    simp at hp
  · rw [if_neg hc] at h
    exact merge_go_nonws maxTokens chunks [] out h (Or.inl hex)

theorem split_by_sentences_nonws (text : List Char) (ss : List (List Char))
    (htext : ∃ c ∈ text, isPySpace c = false)
    (h : split_by_sentences text = some ss) :
    ∃ q ∈ ss, ∃ c ∈ q, isPySpace c = false := by
  rw [split_by_sentences] at h
  cases hsc : sentence_candidates text with
  | nil =>
    rw [hsc] at h
    obtain ⟨_, hsubs⟩ := force_split_some _ _ _ h
    have hflat : ss.flatten = text := by
      rw [hsubs]
      exact forceSplitGo_flatten _ _ _
    obtain ⟨c, hc, hcw⟩ := htext
    rw [← hflat] at hc
    obtain ⟨q, hq, hcq⟩ := List.mem_flatten.mp hc
    exact ⟨q, hq, c, hcq, hcw⟩
  | cons q0 qs =>
    rw [hsc] at h
    injection h with h
    subst h
    obtain ⟨x, hx, hq0⟩ :=
      sentence_candidates_strip text q0 (by rw [hsc]; exact List.mem_cons_self _ _)
    have hxs : strip x ≠ [] := by
      rw [hx]
      exact hq0
    obtain ⟨c, hc, hcw⟩ := mem_strip_nonspace x hxs
    rw [hx] at hc
    exact ⟨q0, List.mem_cons_self _ _, c, hc, hcw⟩

theorem process_chunks_nonws :
    ∀ (initial : List (List Char)) (maxTokens : Nat) (allow : Bool) (out : List (List Char)),
      process_chunks initial maxTokens allow = some out →
      (∃ p ∈ initial, ∃ c ∈ p, isPySpace c = false) →
      ∃ q ∈ out, ∃ c ∈ q, isPySpace c = false := by
  intro initial
  induction initial with
  | nil =>
    intro maxTokens allow out h hex
    obtain ⟨p, hp, _⟩ := hex
    simp at hp
  | cons chunk rest ih =>
    intro maxTokens allow out h hex
    simp only [process_chunks] at h
    cases hh : (if estimate_tokens chunk ≤ maxTokens then some [chunk]
        else if allow then
          (split_by_sentences chunk).bind fun ss => merge_small_chunks ss maxTokens
        else force_split chunk (maxTokens * 3)) with
    | none =>
      rw [hh] at h
      cases hr : process_chunks rest maxTokens allow with
      | none => rw [hr] at h; exact Option.noConfusion h
      | some t => rw [hr] at h; exact Option.noConfusion h
    | some hd =>
      rw [hh] at h
      cases hr : process_chunks rest maxTokens allow with
      | none => rw [hr] at h; exact Option.noConfusion h
      | some t =>
        rw [hr] at h
        injection h with h
        subst h
        obtain ⟨p, hp, hpw⟩ := hex
        rcases List.mem_cons.mp hp with rfl | hp'
        · by_cases hfit : estimate_tokens p ≤ maxTokens
          · rw [if_pos hfit] at hh
            injection hh with hh
            subst hh
            exact ⟨p, List.mem_append.mpr (Or.inl (List.mem_singleton.mpr rfl)), hpw⟩
          · rw [if_neg hfit] at hh
            by_cases hal : allow = true
            · rw [if_pos hal] at hh
              obtain ⟨ss, hss, hms⟩ := Option.bind_eq_some.mp hh
              obtain ⟨s1, hs1, hs1w⟩ := split_by_sentences_nonws p ss hpw hss
              obtain ⟨q, hq, hqw⟩ :=
                merge_small_chunks_nonws ss maxTokens hd hms ⟨s1, hs1, hs1w⟩
              exact ⟨q, List.mem_append.mpr (Or.inl hq), hqw⟩
            · rw [if_neg hal] at hh
              obtain ⟨_, hsubs⟩ := force_split_some _ _ _ hh
              have hflat : hd.flatten = p := by
                rw [hsubs]
                exact forceSplitGo_flatten _ _ _
              obtain ⟨c, hc, hcw⟩ := hpw
              rw [← hflat] at hc
              obtain ⟨q, hq, hcq⟩ := List.mem_flatten.mp hc
              exact ⟨q, List.mem_append.mpr (Or.inl hq), c, hcq, hcw⟩
        · obtain ⟨q, hq, hqw⟩ := ih maxTokens allow t hr ⟨p, hp', hpw⟩
          exact ⟨q, List.mem_append.mpr (Or.inr hq), hqw⟩

/-- Claim C3, amended: for every token budget that is at least 1 (budget
0 makes the Python code raise `ValueError` for any non-blank input),
`chunk_text` terminates normally, returning an empty sequence exactly
when the input is empty or whitespace-only, and hence at least one
segment for any non-blank input. -/
theorem c3_amended (text : List Char) (maxTokens : Nat) (prefs : Option (List Boundary))
    (hm : 1 ≤ maxTokens) :
    ∃ l, chunk_text text maxTokens prefs = some l ∧ (l = [] ↔ strip text = []) := by
  by_cases hb : strip text = []
  · refine ⟨[], ?_, by simp [hb]⟩
    rw [chunk_text, if_pos hb]
  · rw [chunk_text, if_neg hb]
    by_cases hfit : estimate_tokens text ≤ maxTokens
    · rw [if_pos hfit]
      exact ⟨[text], rfl, by simp [hb]⟩
    · rw [if_neg hfit]
      by_cases hp : Boundary.paragraph ∈ prefs.getD [Boundary.paragraph, Boundary.sentence]
      · rw [if_pos hp]
        obtain ⟨out, hout⟩ := process_chunks_isSome (split_by_paragraphs text) maxTokens _ hm
        rw [hout]
        refine ⟨_, rfl, ?_⟩
        obtain ⟨p0, hp0, hp0w⟩ := split_by_paragraphs_nonws text hb
        obtain ⟨q, hq, hqw⟩ := process_chunks_nonws _ _ _ _ hout ⟨p0, hp0, hp0w⟩
        have hsq : strip q ≠ [] := (strip_ne_nil_iff q).mpr hqw
        have hmem : strip q ∈ out.filterMap
            (fun c => match strip c with | [] => none | r => some r) :=
          List.mem_filterMap.mpr ⟨q, hq, strip_match_some q hsq⟩
        exact iff_of_false (List.ne_nil_of_mem hmem) hb
      · rw [if_neg hp]
        obtain ⟨out, hout⟩ := process_chunks_isSome [text] maxTokens _ hm
        rw [hout]
        refine ⟨_, rfl, ?_⟩
        obtain ⟨q, hq, hqw⟩ := process_chunks_nonws _ _ _ _ hout
          ⟨text, List.mem_singleton.mpr rfl, (strip_ne_nil_iff text).mp hb⟩
        have hsq : strip q ≠ [] := (strip_ne_nil_iff q).mpr hqw
        have hmem : strip q ∈ out.filterMap
            (fun c => match strip c with | [] => none | r => some r) :=
          List.mem_filterMap.mpr ⟨q, hq, strip_match_some q hsq⟩
        exact iff_of_false (List.ne_nil_of_mem hmem) hb

/-- Counterexample to claim C3 as stated: with token budget 0 the
one-character text `"a"` reaches `_force_split` with character window
`max_tokens * 3 = 0`, where `range(0, len, 0)` raises `ValueError`
(modelled as `none`): the call does not return a segment list at all. -/
theorem c3_counterexample : chunk_text "a".data 0 none = none := by decide

/-- Witness for the amended C3 at the concrete input `"a"`, budget 1. -/
theorem c3_amended_witness :
    1 ≤ 1 ∧ ∃ l, chunk_text "a".data 1 none = some l ∧ (l = [] ↔ strip "a".data = []) :=
  ⟨le_refl 1, c3_amended "a".data 1 none (le_refl 1)⟩

/-! ### Claim C9: the merge rule of `_merge_chunks` -/

theorem not_endsBlank_append_strip (x q : List Char) (h : strip q ≠ []) :
    ¬ ((x ++ strip q).reverse.take 2 = ['\n', '\n']) := by
  intro hcontra
  rw [List.reverse_append] at hcontra
  cases hr : (strip q).reverse with
  | nil => exact h (by simpa using congrArg List.reverse hr)
  | cons a t =>
    rw [hr] at hcontra
    have hsp := strip_last_not_space q a t hr
    have ha : a = '\n' := by
      cases hl : t ++ x.reverse with
      | nil =>
        rw [show ((a :: t) ++ x.reverse) = a :: (t ++ x.reverse) from rfl, hl] at hcontra
        simp at hcontra
      | cons b l2 =>
        rw [show ((a :: t) ++ x.reverse) = a :: (t ++ x.reverse) from rfl, hl] at hcontra
        have h2 : ([a, b] : List Char) = ['\n', '\n'] := hcontra
        exact (List.cons_eq_cons.mp h2).1
    rw [ha] at hsp
    exact absurd hsp (by decide)

theorem merge_chunks_loop_spec :
    ∀ (chunks : List (List Char)) (i : Nat) (merged : List Char),
      ¬ (merged.reverse.take 2 = ['\n', '\n']) →
      merge_chunks_loop merged i chunks = merged ++ merge_chunks_spec_from i chunks := by
  intro chunks
  induction chunks with
  | nil =>
    intro i merged _
    simp [merge_chunks_loop, merge_chunks_spec_from]
  | cons chunk rest ih =>
    intro i merged hm
    cases hsc : strip chunk with
    | nil =>
      simp only [merge_chunks_loop, merge_chunks_spec_from, hsc]
      rw [ih (i + 1) merged hm]
      simp
    | cons a t =>
      simp only [merge_chunks_loop, merge_chunks_spec_from, hsc]
      have hhead : ¬ ((a :: t).head? = some '\n') := by
        intro hh
        injection hh with hh
        have hns := strip_head_not_space chunk a t hsc
        rw [hh] at hns
        exact absurd hns (by decide)
      have hstrip_ne : strip chunk ≠ [] := by
        rw [hsc]
        exact List.cons_ne_nil a t
      by_cases hi : 0 < i
      · have hcond : 0 < i ∧
            ¬(List.take 2 merged.reverse = ['\n', '\n'] ∨ (a :: t).head? = some '\n') :=
          ⟨hi, not_or.mpr ⟨hm, hhead⟩⟩
        rw [if_pos hcond]
        have hshape : merged ++ '\n' :: '\n' :: (a :: t) =
            (merged ++ ['\n', '\n']) ++ strip chunk := by
          rw [hsc]
          simp
        rw [hshape, ih (i + 1) _ (not_endsBlank_append_strip _ chunk hstrip_ne),
          if_neg (by omega : ¬ i = 0), hsc]
        simp
      · have hi0 : i = 0 := by omega
        have hcondn : ¬(0 < i ∧
            ¬(List.take 2 merged.reverse = ['\n', '\n'] ∨ (a :: t).head? = some '\n')) :=
          fun hcond => hi hcond.1
        rw [if_neg hcondn]
        have hshape : merged ++ (a :: t) = merged ++ strip chunk := by rw [hsc]
        rw [hshape, ih (i + 1) _ (not_endsBlank_append_strip _ chunk hstrip_ne),
          if_pos hi0, hsc]
        simp

/-- Claim C9, amended: `_merge_chunks` returns `""` on the empty list and
otherwise equals the amended separator rule `merge_chunks_spec`: trimmed
non-blank pieces joined by blank-line separators, with a separator placed
before every kept piece of positive index — so a whitespace-only chunk
before the first kept piece leaves a leading blank-line separator rather
than contributing nothing. -/
theorem c9_amended (chunks : List (List Char)) :
    merge_chunks chunks = merge_chunks_spec chunks := by
  rw [merge_chunks, merge_chunks_spec]
  by_cases hc : chunks = []
  · rw [if_pos hc, hc]
    rfl
  · rw [if_neg hc, merge_chunks_loop_spec chunks 0 [] (by decide)]
    rfl

/-- Counterexample to claim C9 as stated: the whitespace-only chunk at
index 0 does contribute — it forces a leading blank-line separator, so
`_merge_chunks(["", "a"])` is `"\n\na"`, not `"a"`. -/
theorem c9_counterexample :
    merge_chunks [[], ['a']] = ['\n', '\n', 'a'] ∧
      merge_chunks [[], ['a']] ≠ merge_chunks [['a']] := by
  constructor
  · decide
  · decide

/-! ### Claims C6, C7, C8: the translation orchestration -/

theorem collect_translations_none (translate : Nat → Option (List Char)) :
    ∀ (chunks : List (List Char)) (start i : Nat),
      i < chunks.length → translate (start + i) = none →
      collect_translations translate start chunks = none := by
  intro chunks
  induction chunks with
  | nil =>
    intro start i hi _
    simp at hi
  | cons c rest ih =>
    intro start i hi hnone
    simp only [collect_translations]
    cases ht : translate start with
    | none => rfl
    | some t =>
      cases i with
      | zero =>
        rw [Nat.add_zero] at hnone
        rw [hnone] at ht
        exact Option.noConfusion ht
      | succ k =>
        show (if t = [] then none
          else (collect_translations translate (start + 1) rest).map fun ts => t :: ts) = none
        by_cases hte : t = []
        · rw [if_pos hte]
        · rw [if_neg hte]
          have hk : k < rest.length := by
            simp only [List.length_cons] at hi
            omega
          have hn : translate (start + 1 + k) = none := by
            rw [show start + 1 + k = start + (k + 1) by omega]
            exact hnone
          rw [ih (start + 1) k hk hn]
          rfl

/-- A failing backend result (`None` or empty) for any in-range segment
makes `translate_file` return the failure outcome (the Python
`return False` inside the per-chunk loop, translator.py lines 83-85). -/
theorem translate_file_fails_at (cfg : TranslationConfig) (content : List Char)
    (translate : Nat → Option (List Char)) (chunks : List (List Char)) (i : Nat)
    (hchunks : chunk_text content cfg.maxTokens none = some chunks)
    (hi : i < chunks.length) (hfail : translate i = none) :
    translate_file cfg content translate = Outcome.failure := by
  rw [translate_file]
  cases create_llm_client cfg with
  | error e => rfl
  | ok cl =>
    by_cases hb : strip content = []
    · rw [if_pos hb]
    · rw [if_neg hb]
      simp only [hchunks]
      rw [collect_translations_none translate chunks 0 i hi
        (by rw [Nat.zero_add]; exact hfail)]

/-- Claim C6: if the backend client returns failure for any segment of
the document (after its retries are exhausted), `translate_file` yields
the failure outcome for the whole document; the failure outcome carries
no text, so no merged or partial translation is ever emitted as a
success — segments translated before or after the failing one reach no
output. -/
theorem c6_segment_failure (cfg : TranslationConfig) (content : List Char)
    (translate : Nat → Option (List Char)) (chunks : List (List Char)) (i : Nat)
    (hchunks : chunk_text content cfg.maxTokens none = some chunks)
    (hi : i < chunks.length) (hfail : translate i = none) :
    translate_file cfg content translate = Outcome.failure :=
  translate_file_fails_at cfg content translate chunks i hchunks hi hfail

/-- Witness for C6: one segment, whose translation fails. -/
theorem c6_segment_failure_witness :
    chunk_text "hello world".data (10 : Nat) none = some ["hello world".data] ∧
    0 < (["hello world".data] : List (List Char)).length ∧
    translate_file ⟨"openai".data, 10⟩ "hello world".data
      (fun _ => (none : Option (List Char))) = Outcome.failure :=
  ⟨by decide, by decide,
    c6_segment_failure ⟨"openai".data, 10⟩ "hello world".data (fun _ => none)
      ["hello world".data] 0 (by decide) (by decide) rfl⟩

/-- Claim C7, amended: an unsupported provider tag is not surfaced as a
fatal error before per-document work — the `ValueError` from
`_create_llm_client` is raised inside `translate_file`'s `try`, caught
there, and recorded as that document's failure; the batch attempts and
records every document. -/
theorem c7_amended (cfg : TranslationConfig) (files : List (Nat × List Char))
    (translate : Nat → Nat → Option (List Char))
    (h1 : cfg.provider.map Char.toLower ≠ "ollama".data)
    (h2 : cfg.provider.map Char.toLower ≠ "openai".data) :
    translate_files cfg files translate = files.map (fun f => (f.1, false)) := by
  rw [translate_files]
  apply List.map_congr_left
  intro f _
  have hfail : translate_file cfg f.2 (translate f.1) = Outcome.failure := by
    rw [translate_file, create_llm_client, if_neg h1, if_neg h2]
  rw [hfail]
  rfl

/-- Counterexample to claim C7 as stated: with the unsupported provider
tag `"foo"`, running a batch of two documents does not terminate with a
configuration error before per-document work — both documents are
attempted, each fails, and the batch returns a complete outcome map. -/
theorem c7_counterexample :
    translate_files ⟨"foo".data, 10⟩ [(0, "hello".data), (1, "hi".data)]
      (fun _ _ => some ['x']) = [(0, false), (1, false)] := by
  decide

/-- Witness for the amended C7 at provider `"foo"` with two documents. -/
theorem c7_amended_witness :
    "foo".data.map Char.toLower ≠ "ollama".data ∧
    "foo".data.map Char.toLower ≠ "openai".data ∧
    translate_files ⟨"foo".data, 10⟩ [(0, "hello".data), (1, "hi".data)]
      (fun _ _ => some ['x']) =
      [(0, "hello".data), (1, "hi".data)].map (fun f => (f.1, false)) :=
  ⟨by decide, by decide,
    c7_amended ⟨"foo".data, 10⟩ [(0, "hello".data), (1, "hi".data)]
      (fun _ _ => some ['x']) (by decide) (by decide)⟩

/-- Claim C8, amended: cancellation surfaces as the in-flight backend
call returning `None`, so the affected document's recorded outcome is
`false` — the very same boolean a failed document records, with no
distinct Cancelled status — and no partial translated text is retained
(the failure outcome carries none).  Documents not yet started are not
marked cancelled: the batch continues and records an outcome for every
input in order. -/
theorem c8_amended (cfg : TranslationConfig) (files : List (Nat × List Char))
    (translate : Nat → Nat → Option (List Char)) (f : Nat × List Char)
    (chunks : List (List Char)) (i : Nat)
    (hf : f ∈ files)
    (hchunks : chunk_text f.2 cfg.maxTokens none = some chunks)
    (hi : i < chunks.length)
    (_hbefore : ∀ j < i, ∃ t, translate f.1 j = some t ∧ t ≠ [])
    (hcancel : translate f.1 i = none) :
    (f.1, false) ∈ translate_files cfg files translate ∧
      (translate_files cfg files translate).map Prod.fst = files.map Prod.fst := by
  constructor
  · have hfail := translate_file_fails_at cfg f.2 (translate f.1) chunks i hchunks hi hcancel
    have hmem : (f.1, (translate_file cfg f.2 (translate f.1)).ok) ∈
        files.map (fun f => (f.1, (translate_file cfg f.2 (translate f.1)).ok)) :=
      List.mem_map_of_mem (fun f => (f.1, (translate_file cfg f.2 (translate f.1)).ok)) hf
    rw [hfail] at hmem
    exact hmem
  · rw [translate_files, List.map_map]
    exact List.map_congr_left fun a _ => rfl

/-- Counterexample to claim C8 as stated: a document of two segments
whose backend is cancelled after segment 1 gets the outcome
`Outcome.failure` — the very value a failed document records (`False`
in Python) — and in a batch the not-yet-started second document is
still attempted and recorded, not marked with any Cancelled status. -/
theorem c8_counterexample :
    translate_file ⟨"openai".data, 1⟩ "aaaa\n\nbbbb".data
      (fun j => if j = 0 then some ['x'] else none) = Outcome.failure ∧
    translate_files ⟨"openai".data, 1⟩
      [(0, "aaaa\n\nbbbb".data), (1, "cccc".data)]
      (fun fid j => if fid = 0 then (if j = 0 then some ['x'] else none) else none) =
      [(0, false), (1, false)] := by
  constructor
  · decide
  · decide

/-- Witness for the amended C8: document 0 is cancelled between its two
segments; the batch records `false` for it and an outcome for every
document. -/
theorem c8_amended_witness :
    ((0, "aaaa\n\nbbbb".data) ∈ [((0 : Nat), "aaaa\n\nbbbb".data), (1, "cccc".data)] ∧
      chunk_text "aaaa\n\nbbbb".data (1 : Nat) none = some ["aaaa".data, "bbbb".data] ∧
      1 < (["aaaa".data, "bbbb".data] : List (List Char)).length) ∧
    ((0, false) ∈ translate_files ⟨"openai".data, 1⟩
        [(0, "aaaa\n\nbbbb".data), (1, "cccc".data)]
        (fun fid j => if fid = 0 then (if j = 0 then some ['x'] else none) else none) ∧
      (translate_files ⟨"openai".data, 1⟩
        [(0, "aaaa\n\nbbbb".data), (1, "cccc".data)]
        (fun fid j => if fid = 0 then (if j = 0 then some ['x'] else none) else none)).map
          Prod.fst =
        [((0 : Nat), "aaaa\n\nbbbb".data), (1, "cccc".data)].map Prod.fst) :=
  ⟨⟨by decide, by decide, by decide⟩,
    c8_amended ⟨"openai".data, 1⟩ [(0, "aaaa\n\nbbbb".data), (1, "cccc".data)]
      (fun fid j => if fid = 0 then (if j = 0 then some ['x'] else none) else none)
      (0, "aaaa\n\nbbbb".data) ["aaaa".data, "bbbb".data] 1
      (by decide) (by decide) (by decide)
      (fun j hj => by
        have hj0 : j = 0 := by omega
        subst hj0
        exact ⟨['x'], rfl, by decide⟩)
      rfl⟩

end PyTrans
